import Mathlib

/-!
Verification development for the approximate-nearest-neighbor material of this
repository.  The repository's single source file is a notebook that drives
`LSHForest` over a hyperparameter grid; the core LSH-forest index it exercises
is specified in `spec.md` but its code is not in the repository, so the index
is modelled here from the spec, while the notebook's own experiment structure
(constructor arguments, accuracy arithmetic) is embedded from the notebook
cells directly.
-/

namespace LSHForestModel

/-- Modelled from the spec: a feature vector (fixed-dimension numeric vector),
with rationals standing in for the floats of the reference library. -/
abbrev Vec := List ℚ

/-- Modelled from the spec: dot product of two feature vectors. -/
def dot (u v : Vec) : ℚ := (List.zipWith (fun a b => a * b) u v).sum

/-- Modelled from the spec: one step of a deterministic pseudo-random number
generator used to derive projection vectors from a seed (the spec requires
determinism in the seed, not any particular distribution). -/
def lcg (s : Nat) : Nat := (1103515245 * s + 12345) % 2147483648

/-- Modelled from the spec: one pseudo-random rational coordinate drawn from
the generator state. -/
def lcgVal (s : Nat) : ℚ := ((Int.ofNat (s % 2001)) - 1000 : ℤ)

/-- Modelled from the spec: generate one pseudo-random projection vector of
the given dimension, threading the generator state. -/
def genVecAux : Nat → Nat → (List ℚ × Nat)
  | 0, s => ([], s)
  | n + 1, s =>
    let s' := lcg s
    let r := genVecAux n s'
    (lcgVal s' :: r.1, r.2)

/-- Modelled from the spec: generate a list of pseudo-random projection
vectors, threading the generator state. -/
def genFamilyAux : Nat → Nat → Nat → (List Vec × Nat)
  | 0, _, s => ([], s)
  | n + 1, d, s =>
    let r := genVecAux d s
    let rs := genFamilyAux n d r.2
    (r.1 :: rs.1, rs.2)

/-- Modelled from the spec: a HashFamily is a fixed set of random projection
vectors (count = signature length). -/
structure HashFamily where
  projections : List Vec

/-- Modelled from the spec: `generate(dimension, signature_length, seed)`
produces `signature_length` projection vectors of size `dimension`,
deterministic for a given seed. -/
def HashFamily.generate (dimension signature_length seed : Nat) : HashFamily :=
  { projections := (genFamilyAux signature_length dimension (lcg seed)).1 }

/-- Modelled from the spec: a Signature is a fixed-length bit string. -/
abbrev Signature := List Bool

/-- Modelled from the spec: `hash(point)` sets bit i to 1 exactly when the dot
product of the point with projection vector i exceeds 0. -/
def HashFamily.hash (fam : HashFamily) (p : Vec) : Signature :=
  fam.projections.map (fun v => decide (0 < dot p v))

/-- Modelled from the spec: lexicographic comparison of signatures, the sort
key of the tree's ordered signature storage. -/
def sigLe : Signature → Signature → Bool
  | [], _ => true
  | _ :: _, [] => false
  | a :: as, b :: bs => (!a && b) || (a == b && sigLe as bs)

/-- Modelled from the spec: ordering of tree entries, ascending signature
order with ties broken by point id (the spec's stable deterministic policy). -/
def entryLe (e₁ e₂ : Signature × Nat) : Bool :=
  if e₁.1 = e₂.1 then decide (e₁.2 ≤ e₂.2) else sigLe e₁.1 e₂.1

/-- Modelled from the spec: insertion of a (signature, point-id) entry into
the sorted entry list at its sorted position. -/
def insertEntry : List (Signature × Nat) → (Signature × Nat) → List (Signature × Nat)
  | [], e => [e]
  | x :: xs, e => if entryLe e x then e :: x :: xs else x :: insertEntry xs e

/-- Modelled from the spec: a HashTree stores (signature, point-id) pairs in a
sorted structure, together with its own HashFamily. -/
structure HashTree where
  family : HashFamily
  entries : List (Signature × Nat)

/-- Modelled from the spec: `build` computes all signatures and stores them in
ascending signature order; point ids are the insertion positions. -/
def HashTree.buildEntries (fam : HashFamily) : List Vec → Nat → List (Signature × Nat)
  | [], _ => []
  | p :: ps, i => insertEntry (HashTree.buildEntries fam ps (i + 1)) (fam.hash p, i)

/-- Modelled from the spec: `build(points, hash_family)`. -/
def HashTree.build (points : List Vec) (fam : HashFamily) : HashTree :=
  { family := fam, entries := HashTree.buildEntries fam points 0 }

/-- Modelled from the spec: `insert(point)` computes the point's signature and
inserts it in sorted position. -/
def HashTree.insert (t : HashTree) (id : Nat) (p : Vec) : HashTree :=
  { t with entries := insertEntry t.entries (t.family.hash p, id) }

/-- Modelled from the spec: length of the common prefix of two signatures,
measuring how much of the query's signature an entry matches. -/
def commonPre : Signature → Signature → Nat
  | a :: as, b :: bs => if a = b then commonPre as bs + 1 else 0
  | _, _ => 0

/-- Modelled from the spec: candidate-expansion ordering around a query
signature — exact-bucket matches first, then entries matching ever shorter
signature prefixes (widening the matched prefix), ties broken by point id. -/
def expansionLe (sig : Signature) (e₁ e₂ : Signature × Nat) : Bool :=
  decide (sig.length - commonPre sig e₁.1 < sig.length - commonPre sig e₂.1 ∨
    (sig.length - commonPre sig e₁.1 = sig.length - commonPre sig e₂.1 ∧ e₁.2 ≤ e₂.2))

/-- Modelled from the spec: the point ids of the tree listed in the order the
candidate expansion visits them. -/
def HashTree.expansionOrder (t : HashTree) (sig : Signature) : List Nat :=
  (t.entries.mergeSort (expansionLe sig)).map (fun e => e.2)

/-- Modelled from the spec: `candidates(query_signature, min_count)` expands
outward from the exact-match bucket, collecting distinct point ids until
`min_count` are found or the tree is exhausted (the spec's design notes allow
any deterministic expansion satisfying this candidate-count contract). -/
def HashTree.candidates (t : HashTree) (sig : Signature) (min_count : Nat) : List Nat :=
  ((t.expansionOrder sig).dedup).take min_count

/-- Modelled from the spec: the error kinds of the index. -/
inductive IndexError where
  | EmptyDatasetError : IndexError
  | DimensionMismatch : IndexError
deriving DecidableEq

/-- Modelled from the spec: the ForestIndex owns the point collection (ids are
insertion positions) and an ordered collection of HashTrees. -/
structure ForestIndex where
  dimension : Nat
  points : List Vec
  trees : List HashTree

/-- Modelled from the spec: per-tree seed derived deterministically from the
forest seed and the tree index. -/
def treeSeed (seed i : Nat) : Nat := lcg (seed + 1000003 * i)

/-- Modelled from the spec: `fit(points, n_estimators, seed)` constructs
`n_estimators` HashTrees, each with an independently seeded HashFamily; fails
with `EmptyDatasetError` on an empty point set and with `DimensionMismatch`
when a point's dimension disagrees with the index dimension. -/
def ForestIndex.fit (points : List Vec) (dimension signature_length n_estimators seed : Nat) :
    Except IndexError ForestIndex :=
  if points.isEmpty then .error .EmptyDatasetError
  else if points.all (fun p => p.length = dimension) then
    .ok { dimension := dimension, points := points,
          trees := (List.range n_estimators).map (fun i =>
            HashTree.build points (HashFamily.generate dimension signature_length (treeSeed seed i))) }
  else .error .DimensionMismatch

/-- Modelled from the spec: the external `build_index(points, n_estimators, seed)`
entry point, a thin wrapper over `fit`. -/
def build_index (points : List Vec) (n_estimators seed dimension signature_length : Nat) :
    Except IndexError ForestIndex :=
  ForestIndex.fit points dimension signature_length n_estimators seed

/-- Modelled from the spec: `insert(point)` forwards the point to every owned
tree, assigning it the next insertion-order id; dimension mismatch is surfaced
synchronously. -/
def ForestIndex.insert (f : ForestIndex) (p : Vec) : Except IndexError ForestIndex :=
  if p.length = f.dimension then
    .ok { f with points := f.points ++ [p],
                 trees := f.trees.map (fun t => t.insert f.points.length p) }
  else .error .DimensionMismatch

/-- Modelled from the spec: insert a whole list of points one at a time. -/
def ForestIndex.insertAll (f : ForestIndex) (ps : List Vec) : Except IndexError ForestIndex :=
  ps.foldlM (fun g p => g.insert p) f

/-- Modelled from the spec: ranking order of the query engine — ascending by
distance, ties broken by point insertion order (= id). -/
def pairLe (a b : Nat × ℚ) : Bool :=
  decide (a.2 < b.2 ∨ (a.2 = b.2 ∧ a.1 ≤ b.1))

/-- Modelled from the spec: attach distances to a candidate list and sort it
ascending by distance with ties broken by insertion order. -/
def rank (distOf : Nat → ℚ) (ids : List Nat) : List (Nat × ℚ) :=
  (ids.map (fun i => (i, distOf i))).mergeSort pairLe

/-- Modelled from the spec: the deduplicated candidate pool, the union over
all trees of each tree's `candidates` for the query's per-tree signature. -/
def ForestIndex.pool (f : ForestIndex) (q : Vec) (n_candidates : Nat) : List Nat :=
  ((f.trees.map (fun t => t.candidates (t.family.hash q) n_candidates)).flatten).dedup

/-- Modelled from the spec: exact distance from the query to the stored point
with the given id, via the pluggable Distance Oracle `dist`. -/
def distOfQ (dist : Vec → Vec → ℚ) (points : List Vec) (q : Vec) : Nat → ℚ :=
  fun id => dist q (points.getD id [])

/-- Modelled from the spec: `kneighbors(query, k, n_candidates)` — check the
query dimension, collect the per-tree candidate pool, rank by exact distance
with insertion-order tie-break, truncate to `k`. -/
def ForestIndex.kneighbors (dist : Vec → Vec → ℚ) (f : ForestIndex) (q : Vec)
    (k n_candidates : Nat) : Except IndexError (List (Nat × ℚ)) :=
  if q.length = f.dimension then
    .ok ((rank (distOfQ dist f.points q) (f.pool q n_candidates)).take k)
  else .error .DimensionMismatch

/-- Modelled from the spec: `exact_knn(points, query, k, distance_fn)`, the
brute-force baseline ranking every stored point. -/
def exact_knn (points : List Vec) (q : Vec) (k : Nat) (dist : Vec → Vec → ℚ) :
    List (Nat × ℚ) :=
  (rank (distOfQ dist points q) (List.range points.length)).take k

/-- Modelled from the spec: the id of the approximate top-1 neighbor a query
receives from the forest, when any. -/
def approxTop1 (dist : Vec → Vec → ℚ) (f : ForestIndex) (q : Vec) (n_candidates : Nat) :
    Option Nat :=
  match f.kneighbors dist q 1 n_candidates with
  | .ok r => r.head?.map (fun e => e.1)
  | .error _ => none

/-- Modelled from the spec: the id of the exact top-1 neighbor computed by the
brute-force baseline, when any. -/
def exactTop1 (points : List Vec) (q : Vec) (dist : Vec → Vec → ℚ) : Option Nat :=
  ((exact_knn points q 1 dist).head?).map (fun e => e.1)

/-- Modelled from the spec: whether the approximate and the exact top-1
neighbor of a query overlap (the per-query recall indicator the experiment
averages). -/
def top1Match (dist : Vec → Vec → ℚ) (points : List Vec) (f : ForestIndex)
    (n_candidates : Nat) (q : Vec) : Bool :=
  match approxTop1 dist f q n_candidates, exactTop1 points q dist with
  | some a, some e => a == e
  | _, _ => false

/-- Modelled from the spec: number of sampled queries whose approximate top-1
neighbor equals the exact top-1 neighbor, for a forest built by `fit` with the
given hyperparameters. -/
def recallCount (dist : Vec → Vec → ℚ) (points queries : List Vec)
    (dimension signature_length n_estimators seed n_candidates : Nat) : Nat :=
  match ForestIndex.fit points dimension signature_length n_estimators seed with
  | .ok f => queries.countP (top1Match dist points f n_candidates)
  | .error _ => 0

/-- Modelled from the spec: expected top-1 recall over a sampled query set —
the fraction of queries whose approximate top-1 neighbor equals the exact
top-1 neighbor. -/
def expectedRecall (dist : Vec → Vec → ℚ) (points queries : List Vec)
    (dimension signature_length n_estimators seed n_candidates : Nat) : ℚ :=
  (recallCount dist points queries dimension signature_length n_estimators seed
    n_candidates : ℚ) / (queries.length : ℚ)

end LSHForestModel

namespace NotebookEmbed

/-- Embeds the keyword arguments of one `LSHForest(...)` constructor call in
the notebook; an omitted keyword is `none` (the library default applies,
`random_state=None` meaning the hidden global random state). -/
structure LSHForestArgs where
  n_estimators : Nat
  n_candidates : Option Nat
  n_neighbors : Nat
  random_state : Option Nat
deriving DecidableEq

/-- Embeds cell-8's `n_queries = 30`. -/
def n_queries : Nat := 30

/-- Embeds cell-8's `n_iter = 10`. -/
def n_iter : Nat := 10

/-- Embeds cell-8's `np.linspace(10, 500, 5).astype(np.int)`. -/
def n_candidates_values : List Nat := [10, 132, 255, 377, 500]

/-- Embeds cell-8's `n_estimators_for_candidate_value = [1, 5, 10]`. -/
def n_estimators_for_candidate_value : List Nat := [1, 5, 10]

/-- Embeds cell-10's `n_estimators_values = [1, 5, 10, 20, 30, 40, 50]`. -/
def n_estimators_values : List Nat := [1, 5, 10, 20, 30, 40, 50]

/-- Embeds the `LSHForest` constructions of cell-10's triple loop: for every
`n_estimators` level, every `n_candidates` value and every seed in
`range(n_iter)`, a forest with an explicit `random_state=seed`. -/
def candidateSweepConstructions : List LSHForestArgs :=
  (n_estimators_for_candidate_value.map (fun v =>
    (n_candidates_values.map (fun c =>
      (List.range n_iter).map (fun seed =>
        ({ n_estimators := v, n_candidates := some c, n_neighbors := 1,
           random_state := some seed } : LSHForestArgs)))).flatten)).flatten

/-- Embeds the `LSHForest(n_estimators=n_estimators, n_neighbors=1)`
constructions of cell-12's loop: `n_candidates` and `random_state` are
omitted, so the library defaults apply. -/
def estimatorSweepConstructions : List LSHForestArgs :=
  n_estimators_values.map (fun v =>
    ({ n_estimators := v, n_candidates := none, n_neighbors := 1,
       random_state := none } : LSHForestArgs))

/-- All `LSHForest` constructions the notebook performs. -/
def notebookConstructions : List LSHForestArgs :=
  candidateSweepConstructions ++ estimatorSweepConstructions

/-- Embeds cell-10's per-seed accuracy
`np.sum(np.equal(neighbors_approx, neighbors_exact)) / n_queries`: the count
of queries whose approximate top-1 id equals the exact top-1 id, divided by
`n_queries` under true division (`from __future__ import division`). -/
def accuracyTrial (approx exact : List Nat) : ℚ :=
  ((List.zipWith (fun a b => decide (a = b)) approx exact).count true : ℚ) / (n_queries : ℚ)

/-- Embeds `np.mean` over a list of per-seed accuracies (cell-10's
`accuracies_c[j, i] = np.mean(accuracy_c)`). -/
def npMean (xs : List ℚ) : ℚ := xs.sum / (xs.length : ℚ)

/-- Embeds one entry of `accuracies_c`: the mean of the `n_iter` per-seed
accuracies. -/
def accuraciesCEntry (trials : List ℚ) : ℚ := npMean trials

/-- Embeds one entry of cell-12's `accuracies_trees`: a single per-trial
accuracy. -/
def accuraciesTreesEntry (approx exact : List Nat) : ℚ := accuracyTrial approx exact

end NotebookEmbed

namespace LSHForestModel

/-- Modelled from the spec: a sample pluggable Distance Oracle (squared
Euclidean distance, rational so that ranking is exact). -/
def sqDist (a b : Vec) : ℚ := (List.zipWith (fun x y => (x - y) * (x - y)) a b).sum

theorem pairLe_refl (a : Nat × ℚ) : pairLe a a = true := by
  simp [pairLe]

theorem pairLe_trans (a b c : Nat × ℚ) (hab : pairLe a b) (hbc : pairLe b c) :
    pairLe a c = true := by
  simp only [pairLe, decide_eq_true_eq] at hab hbc ⊢
  rcases hab with h | ⟨h1, h2⟩
  · rcases hbc with h' | ⟨h1', _⟩
    · exact Or.inl (h.trans h')
    · exact Or.inl (h1' ▸ h)
  · rcases hbc with h' | ⟨h1', h2'⟩
    · exact Or.inl (h1 ▸ h')
    · exact Or.inr ⟨h1.trans h1', h2.trans h2'⟩

theorem pairLe_total (a b : Nat × ℚ) : pairLe a b || pairLe b a := by
  simp only [pairLe, Bool.or_eq_true, decide_eq_true_eq]
  rcases lt_trichotomy a.2 b.2 with h | h | h
  · exact Or.inl (Or.inl h)
  · rcases Nat.le_total a.1 b.1 with h' | h'
    · exact Or.inl (Or.inr ⟨h, h'⟩)
    · exact Or.inr (Or.inr ⟨h.symm, h'⟩)
  · exact Or.inr (Or.inl h)

theorem pairLe_antisymm (a b : Nat × ℚ) (hab : pairLe a b) (hba : pairLe b a) :
    a = b := by
  simp only [pairLe, decide_eq_true_eq] at hab hba
  rcases hab with h | ⟨h1, h2⟩
  · rcases hba with h' | ⟨h1', _⟩
    · exact absurd h' (lt_asymm h)
    · exact absurd h (h1' ▸ lt_irrefl a.2)
  · rcases hba with h' | ⟨_, h2'⟩
    · exact absurd h' (h1 ▸ lt_irrefl a.2)
    · exact Prod.ext (Nat.le_antisymm h2 h2') h1

theorem rank_perm (distOf : Nat → ℚ) (l : List Nat) :
    List.Perm (rank distOf l) (l.map fun i => (i, distOf i)) :=
  List.mergeSort_perm ..

theorem rank_sorted (distOf : Nat → ℚ) (l : List Nat) :
    (rank distOf l).Pairwise (fun a b => pairLe a b = true) :=
  List.sorted_mergeSort pairLe_trans pairLe_total _

theorem mem_rank (distOf : Nat → ℚ) (l : List Nat) (x : Nat × ℚ) :
    x ∈ rank distOf l ↔ ∃ i ∈ l, x = (i, distOf i) := by
  rw [(rank_perm distOf l).mem_iff, List.mem_map]
  constructor
  · rintro ⟨i, hi, rfl⟩
    exact ⟨i, hi, rfl⟩
  · rintro ⟨i, hi, rfl⟩
    exact ⟨i, hi, rfl⟩

theorem rank_length (distOf : Nat → ℚ) (l : List Nat) :
    (rank distOf l).length = l.length := by
  rw [(rank_perm distOf l).length_eq, List.length_map]

theorem rank_head_spec (distOf : Nat → ℚ) (l : List Nat) (h : Nat × ℚ)
    (hh : (rank distOf l).head? = some h) :
    h.1 ∈ l ∧ h.2 = distOf h.1 ∧ ∀ i ∈ l, pairLe h (i, distOf i) = true := by
  cases hr : rank distOf l with
  | nil => rw [hr] at hh; exact absurd hh (by simp)
  | cons a rest =>
    rw [hr] at hh
    have ha : a = h := by simpa using hh
    subst ha
    have hmem : a ∈ rank distOf l := by rw [hr]; exact List.mem_cons_self ..
    obtain ⟨i, hi, hx⟩ := (mem_rank distOf l a).1 hmem
    have hs := rank_sorted distOf l
    rw [hr] at hs
    have hhead := (List.pairwise_cons.1 hs).1
    refine ⟨?_, ?_, ?_⟩
    · rw [hx]; exact hi
    · rw [hx]
    · intro j hj
      have hjm : (j, distOf j) ∈ rank distOf l := (mem_rank distOf l _).2 ⟨j, hj, rfl⟩
      rw [hr] at hjm
      rcases List.mem_cons.1 hjm with heq | htail
      · rw [← heq]; exact pairLe_refl _
      · exact hhead _ htail

theorem rank_head_exists (distOf : Nat → ℚ) (l : List Nat) (hne : l ≠ []) :
    ∃ h, (rank distOf l).head? = some h := by
  cases hr : rank distOf l with
  | nil =>
    have := rank_length distOf l
    rw [hr] at this
    exact absurd (List.length_eq_zero.1 this.symm) hne
  | cons a rest => exact ⟨a, rfl⟩

theorem rank_head_subset (distOf : Nat → ℚ) (l₁ l₂ : List Nat) (h₁ h₂ : Nat × ℚ)
    (hs : ∀ x ∈ l₁, x ∈ l₂)
    (hh₁ : (rank distOf l₁).head? = some h₁)
    (hh₂ : (rank distOf l₂).head? = some h₂)
    (hmem : h₂.1 ∈ l₁) : h₁ = h₂ := by
  obtain ⟨hm₁, hd₁, hmin₁⟩ := rank_head_spec distOf l₁ h₁ hh₁
  obtain ⟨hm₂, hd₂, hmin₂⟩ := rank_head_spec distOf l₂ h₂ hh₂
  have hab : pairLe h₁ h₂ = true := by
    have := hmin₁ h₂.1 hmem
    rwa [← hd₂, Prod.mk.eta] at this
  have hba : pairLe h₂ h₁ = true := by
    have := hmin₂ h₁.1 (hs _ hm₁)
    rwa [← hd₁, Prod.mk.eta] at this
  exact pairLe_antisymm h₁ h₂ hab hba

theorem genFamilyAux_length (n d s : Nat) : (genFamilyAux n d s).1.length = n := by
  induction n generalizing s with
  | zero => rfl
  | succ k ih => simp [genFamilyAux, ih]

/-- C8: for every point and every HashFamily, `hash(point)` produces a
fixed-length bit string — one bit per projection vector, and `generate` makes
exactly `signature_length` projections — in which bit i is 1 exactly when the
dot product of the point with projection vector i exceeds 0, and 0
otherwise. -/
theorem C8_hash_bit_semantics (fam : HashFamily) (p : Vec) (i d L s : Nat) :
    (fam.hash p).length = fam.projections.length ∧
    ((HashFamily.generate d L s).projections).length = L ∧
    (fam.hash p)[i]? = (fam.projections[i]?).map (fun v => decide (0 < dot p v)) := by
  refine ⟨List.length_map .., ?_, List.getElem?_map ..⟩
  exact genFamilyAux_length L d (lcg s)

/-- C5: `fit`/`build_index` on an empty point set fails with
`EmptyDatasetError`, and for any non-empty, well-dimensioned point set
construction succeeds. -/
theorem C5_empty_dataset_only_failure (points : List Vec) (d L n s : Nat)
    (hne : points ≠ []) (hdim : ∀ p ∈ points, p.length = d) :
    ForestIndex.fit [] d L n s = .error .EmptyDatasetError ∧
    ∃ f, ForestIndex.fit points d L n s = .ok f := by
  constructor
  · rfl
  · unfold ForestIndex.fit
    rw [if_neg, if_pos]
    · exact ⟨_, rfl⟩
    · simpa [List.all_eq_true, decide_eq_true_eq] using hdim
    · simpa [List.isEmpty_iff] using hne

theorem C5_witness : ForestIndex.fit [] 2 1 1 0 = .error .EmptyDatasetError :=
  (C5_empty_dataset_only_failure [[1, 2]] 2 1 1 0 (by decide) (by decide)).1

/-- C6: a query or inserted point whose dimension disagrees with the index's
fixed dimension is rejected with `DimensionMismatch`, surfaced synchronously;
with matching dimension no such error is raised. -/
theorem C6_dimension_mismatch (dist : Vec → Vec → ℚ) (f : ForestIndex)
    (q qg p pg : Vec) (k m : Nat)
    (hq : q.length ≠ f.dimension) (hqg : qg.length = f.dimension)
    (hp : p.length ≠ f.dimension) (hpg : pg.length = f.dimension) :
    f.kneighbors dist q k m = .error .DimensionMismatch ∧
    (f.kneighbors dist qg k m).isOk = true ∧
    f.insert p = .error .DimensionMismatch ∧
    (f.insert pg).isOk = true := by
  refine ⟨?_, ?_, ?_, ?_⟩
  · unfold ForestIndex.kneighbors; rw [if_neg hq]
  · unfold ForestIndex.kneighbors; rw [if_pos hqg]; rfl
  · unfold ForestIndex.insert; rw [if_neg hp]
  · unfold ForestIndex.insert; rw [if_pos hpg]; rfl

theorem C6_witness :
    (ForestIndex.mk 2 [[1, 1]] []).kneighbors sqDist [1, 1, 1] 1 1
      = .error .DimensionMismatch ∧
    (ForestIndex.mk 2 [[1, 1]] []).insert [1] = .error .DimensionMismatch := by
  have h := C6_dimension_mismatch sqDist (ForestIndex.mk 2 [[1, 1]] [])
    [1, 1, 1] [1, 1] [1] [2, 2] 1 1 (by decide) (by decide) (by decide) (by decide)
  exact ⟨h.1, h.2.2.1⟩

/-- C7: a query whose merged candidate pool is empty returns an empty
QueryResult rather than an error, and an empty tree's `candidates` call
returns an empty set rather than an error. -/
theorem C7_empty_pool_empty_result (dist : Vec → Vec → ℚ) (f : ForestIndex)
    (q : Vec) (k m : Nat) (fam : HashFamily) (sig : Signature)
    (hq : q.length = f.dimension) (hpool : f.pool q m = []) :
    f.kneighbors dist q k m = .ok [] ∧
    (HashTree.mk fam []).candidates sig m = [] := by
  constructor
  · unfold ForestIndex.kneighbors
    rw [if_pos hq, hpool]
    simp [rank]
  · simp [HashTree.candidates, HashTree.expansionOrder]

theorem C7_witness :
    (ForestIndex.mk 1 [] []).kneighbors sqDist [5] 2 3 = .ok [] ∧
    (HashTree.mk (HashFamily.mk []) []).candidates [] 3 = [] :=
  C7_empty_pool_empty_result sqDist (ForestIndex.mk 1 [] []) [5] 2 3
    (HashFamily.mk []) [] (by decide) rfl

theorem pool_nodup (f : ForestIndex) (q : Vec) (m : Nat) : (f.pool q m).Nodup := by
  unfold ForestIndex.pool
  exact List.nodup_dedup _

/-- C1: every result of `kneighbors`/`query` is an ordered sequence of
(point-id, distance) pairs of length at most `k`, sorted ascending
(non-decreasing) by distance, with ties broken by the insertion order of the
point (= the point id). -/
theorem C1_query_topk_sorted (dist : Vec → Vec → ℚ) (f : ForestIndex) (q : Vec)
    (k m : Nat) (r : List (Nat × ℚ)) (h : f.kneighbors dist q k m = .ok r) :
    r.length ≤ k ∧ r.Pairwise (fun a b => a.2 < b.2 ∨ (a.2 = b.2 ∧ a.1 < b.1)) := by
  unfold ForestIndex.kneighbors at h
  by_cases hq : q.length = f.dimension
  · rw [if_pos hq] at h
    have hr : r = (rank (distOfQ dist f.points q) (f.pool q m)).take k :=
      (Except.ok.inj h).symm
    subst hr
    refine ⟨List.length_take_le .., ?_⟩
    have hsorted := rank_sorted (distOfQ dist f.points q) (f.pool q m)
    have hnodup :
        ((rank (distOfQ dist f.points q) (f.pool q m)).map (fun e => e.1)).Nodup := by
      have hperm := (rank_perm (distOfQ dist f.points q) (f.pool q m)).map
        (fun e : Nat × ℚ => e.1)
      rw [hperm.nodup_iff, List.map_map]
      have hid : ((fun e : Nat × ℚ => e.1) ∘
          fun i => (i, distOfQ dist f.points q i)) = fun i : Nat => i := rfl
      rw [hid, List.map_id']
      exact pool_nodup f q m
    have hpne : (rank (distOfQ dist f.points q) (f.pool q m)).Pairwise
        (fun a b => a.1 ≠ b.1) := by
      rw [List.Nodup, List.pairwise_map] at hnodup
      exact hnodup
    have hcomb : (List.take k (rank (distOfQ dist f.points q) (f.pool q m))).Pairwise
        (fun a b => pairLe a b = true ∧ a.1 ≠ b.1) :=
      (hsorted.and hpne).sublist (List.take_sublist k _)
    refine hcomb.imp ?_
    rintro a b ⟨hle, hne⟩
    simp only [pairLe, decide_eq_true_eq] at hle
    rcases hle with hlt | ⟨h1, h2⟩
    · exact Or.inl hlt
    · exact Or.inr ⟨h1, lt_of_le_of_ne h2 hne⟩
  · rw [if_neg hq] at h
    simp at h

theorem C1_witness : ([] : List (Nat × ℚ)).length ≤ 1 :=
  (C1_query_topk_sorted sqDist (ForestIndex.mk 1 [] []) [2] 1 1 []
    (by simp [ForestIndex.kneighbors, ForestIndex.pool, rank])).1

/-- C3: on a tree with distinct point ids, `candidates(query_signature,
min_count)` returns a set of distinct point ids whose size is
min(min_count, tree size): at least `min_count` whenever the tree holds that
many points, all points of the tree otherwise, and never more than
`min_count` (the per-tree maximum bound). -/
theorem C3_candidates_count_contract (t : HashTree) (sig : Signature) (m id : Nat)
    (hnd : (t.entries.map (fun e => e.2)).Nodup) (hne : t.entries ≠ []) :
    (t.candidates sig m).Nodup ∧
    (t.candidates sig m).length = min m t.entries.length ∧
    (t.entries.length ≤ m →
      (id ∈ t.candidates sig m ↔ id ∈ t.entries.map (fun e => e.2))) ∧
    (t.candidates sig m).length ≤ m := by
  have eoperm : List.Perm (t.expansionOrder sig) (t.entries.map (fun e => e.2)) :=
    (List.mergeSort_perm t.entries (expansionLe sig)).map _
  have hnd' : (t.expansionOrder sig).Nodup := eoperm.nodup_iff.mpr hnd
  have hdedup : (t.expansionOrder sig).dedup = t.expansionOrder sig := hnd'.dedup
  have hcand : t.candidates sig m = (t.expansionOrder sig).take m := by
    unfold HashTree.candidates
    rw [hdedup]
  have hlen : (t.expansionOrder sig).length = t.entries.length := by
    rw [eoperm.length_eq, List.length_map]
  refine ⟨?_, ?_, ?_, ?_⟩
  · rw [hcand]; exact hnd'.sublist (List.take_sublist ..)
  · rw [hcand, List.length_take, hlen]
  · intro hle
    rw [hcand, List.take_of_length_le (by rw [hlen]; exact hle), eoperm.mem_iff]
  · rw [hcand]; exact List.length_take_le ..

theorem C3_witness :
    ((HashTree.mk (HashFamily.mk []) [([], 0), ([], 1)]).candidates [] 5).Nodup ∧
    ((HashTree.mk (HashFamily.mk []) [([], 0), ([], 1)]).candidates [] 5).length
      = min 5 (HashTree.mk (HashFamily.mk []) [([], 0), ([], 1)]).entries.length ∧
    (0 ∈ (HashTree.mk (HashFamily.mk []) [([], 0), ([], 1)]).candidates [] 5 ↔
      0 ∈ (HashTree.mk (HashFamily.mk []) [([], 0), ([], 1)]).entries.map
        (fun e => e.2)) ∧
    ((HashTree.mk (HashFamily.mk []) [([], 0), ([], 1)]).candidates [] 5).length ≤ 5 := by
  have h := C3_candidates_count_contract
    (HashTree.mk (HashFamily.mk []) [([], 0), ([], 1)]) [] 5 0 (by decide) (by decide)
  exact ⟨h.1, h.2.1, h.2.2.1 (by decide), h.2.2.2⟩

end LSHForestModel

namespace NotebookEmbed

theorem accuracyTrial_bounds (a e : List Nat) (ha : a.length = n_queries) :
    0 ≤ accuracyTrial a e ∧ accuracyTrial a e ≤ 1 := by
  unfold accuracyTrial
  constructor
  · exact div_nonneg (Nat.cast_nonneg _) (by norm_num [n_queries])
  · rw [div_le_one (by norm_num [n_queries])]
    have hc : (List.zipWith (fun a b => decide (a = b)) a e).count true ≤ n_queries := by
      calc (List.zipWith (fun a b => decide (a = b)) a e).count true
          ≤ (List.zipWith (fun a b => decide (a = b)) a e).length :=
            List.count_le_length ..
        _ = min a.length e.length := List.length_zipWith ..
        _ ≤ a.length := Nat.min_le_left ..
        _ = n_queries := ha
    exact_mod_cast hc

theorem npMean_bounds (xs : List ℚ) (hne : xs ≠ [])
    (hb : ∀ x ∈ xs, 0 ≤ x ∧ x ≤ 1) :
    0 ≤ npMean xs ∧ npMean xs ≤ 1 := by
  have hlpos : 0 < (xs.length : ℚ) := by
    have := List.length_pos.mpr hne
    exact_mod_cast this
  unfold npMean
  constructor
  · exact div_nonneg (List.sum_nonneg fun x hx => (hb x hx).1) (le_of_lt hlpos)
  · rw [div_le_one hlpos]
    calc xs.sum ≤ xs.length • (1 : ℚ) :=
          List.sum_le_card_nsmul xs 1 (fun x hx => (hb x hx).2)
      _ = (xs.length : ℚ) := by rw [nsmul_eq_mul, mul_one]

/-- C10: every accuracy value the experiment records lies in [0, 1]: a
per-trial accuracy is the count of matching top-1 neighbors over the 30
queries divided by `n_queries = 30` under true division, an `accuracies_c`
entry is the mean of `n_iter = 10` such per-seed values, and an
`accuracies_trees` entry is a single such value. -/
theorem C10_accuracy_in_unit_interval (approxIds exactIds : List Nat)
    (trialPairs : List (List Nat × List Nat))
    (ha : approxIds.length = n_queries) (ht : trialPairs.length = n_iter)
    (hlen : ∀ pr ∈ trialPairs, pr.1.length = n_queries) :
    (0 ≤ accuracyTrial approxIds exactIds ∧ accuracyTrial approxIds exactIds ≤ 1) ∧
    (0 ≤ accuraciesCEntry (trialPairs.map fun pr => accuracyTrial pr.1 pr.2) ∧
      accuraciesCEntry (trialPairs.map fun pr => accuracyTrial pr.1 pr.2) ≤ 1) ∧
    (0 ≤ accuraciesTreesEntry approxIds exactIds ∧
      accuraciesTreesEntry approxIds exactIds ≤ 1) := by
  have h1 := accuracyTrial_bounds approxIds exactIds ha
  refine ⟨h1, ?_, h1⟩
  apply npMean_bounds
  · have hnil : trialPairs ≠ [] := by
      intro hnil
      rw [hnil] at ht
      simp [n_iter] at ht
    intro hmapnil
    exact hnil (List.map_eq_nil_iff.mp hmapnil)
  · intro x hx
    obtain ⟨pr, hpr, rfl⟩ := List.mem_map.1 hx
    exact accuracyTrial_bounds pr.1 pr.2 (hlen pr hpr)

theorem C10_witness :
    (0 ≤ accuracyTrial (List.replicate 30 0) (List.replicate 30 0) ∧
      accuracyTrial (List.replicate 30 0) (List.replicate 30 0) ≤ 1) ∧
    (0 ≤ accuraciesCEntry ((List.replicate 10 (List.replicate 30 0, List.replicate 30 0)).map
        fun pr => accuracyTrial pr.1 pr.2) ∧
      accuraciesCEntry ((List.replicate 10 (List.replicate 30 0, List.replicate 30 0)).map
        fun pr => accuracyTrial pr.1 pr.2) ≤ 1) ∧
    (0 ≤ accuraciesTreesEntry (List.replicate 30 0) (List.replicate 30 0) ∧
      accuraciesTreesEntry (List.replicate 30 0) (List.replicate 30 0) ≤ 1) :=
  C10_accuracy_in_unit_interval (List.replicate 30 0) (List.replicate 30 0)
    (List.replicate 10 (List.replicate 30 0, List.replicate 30 0))
    (by decide) (by decide) (by decide)

/-- C2 counterexample: the notebook's `n_estimators` sweep (cell-12) constructs
`LSHForest(n_estimators=1, n_neighbors=1)` with `random_state` omitted, so not
every index construction in the program threads an explicit seed; this
construction relies on the library's hidden global random state. -/
theorem C2_counterexample_unseeded_construction :
    ({ n_estimators := 1, n_candidates := none, n_neighbors := 1,
       random_state := none } : LSHForestArgs) ∈ notebookConstructions ∧
    ({ n_estimators := 1, n_candidates := none, n_neighbors := 1,
       random_state := none } : LSHForestArgs).random_state = none := by
  refine ⟨?_, rfl⟩
  have h : ({ n_estimators := 1, n_candidates := none, n_neighbors := 1,
              random_state := none } : LSHForestArgs) ∈ estimatorSweepConstructions := by
    decide
  exact List.mem_append.mpr (Or.inr h)

/-- C2 amended: for a fixed seed and fixed input point set, repeated
`build_index`/`fit` + `query` runs produce identical QueryResults (the model
threads the seed explicitly and is deterministic), and every construction of
the notebook's `n_candidates` sweep threads an explicit `random_state=seed`;
the constructions of the `n_estimators` sweep, however, omit `random_state`
and fall back to the library's hidden global random state. -/
theorem C2_amended_determinism (points : List LSHForestModel.Vec) (d L n s : Nat)
    (dist : LSHForestModel.Vec → LSHForestModel.Vec → ℚ) (q : LSHForestModel.Vec)
    (k m : Nat) (f₁ f₂ : LSHForestModel.ForestIndex)
    (h₁ : LSHForestModel.ForestIndex.fit points d L n s = .ok f₁)
    (h₂ : LSHForestModel.ForestIndex.fit points d L n s = .ok f₂) :
    f₁.kneighbors dist q k m = f₂.kneighbors dist q k m ∧
    ∀ c ∈ candidateSweepConstructions, c.random_state.isSome = true := by
  constructor
  · have hf : f₁ = f₂ := by
      rw [h₁] at h₂
      exact Except.ok.inj h₂
    rw [hf]
  · intro c hc
    unfold candidateSweepConstructions at hc
    rw [List.mem_flatten] at hc
    obtain ⟨l1, hl1, hc⟩ := hc
    rw [List.mem_map] at hl1
    obtain ⟨v, _, rfl⟩ := hl1
    rw [List.mem_flatten] at hc
    obtain ⟨l2, hl2, hc⟩ := hc
    rw [List.mem_map] at hl2
    obtain ⟨cval, _, rfl⟩ := hl2
    rw [List.mem_map] at hc
    obtain ⟨seed, _, rfl⟩ := hc
    rfl

theorem C2_amended_witness :
    (LSHForestModel.ForestIndex.mk 1 [[1]] []).kneighbors LSHForestModel.sqDist [1] 1 1
      = (LSHForestModel.ForestIndex.mk 1 [[1]] []).kneighbors LSHForestModel.sqDist [1] 1 1 :=
  (C2_amended_determinism [[1]] 1 0 0 0 LSHForestModel.sqDist [1] 1 1
    (LSHForestModel.ForestIndex.mk 1 [[1]] [])
    (LSHForestModel.ForestIndex.mk 1 [[1]] []) rfl rfl).1

end NotebookEmbed

namespace LSHForestModel

theorem countP_insertEntry (p : (Signature × Nat) → Bool) (l : List (Signature × Nat))
    (e : Signature × Nat) :
    (insertEntry l e).countP p = l.countP p + (if p e then 1 else 0) := by
  induction l with
  | nil => simp [insertEntry, List.countP_cons]
  | cons x xs ih =>
    unfold insertEntry
    by_cases h : entryLe e x
    · rw [if_pos h]
      simp only [List.countP_cons]
      try omega
    · rw [if_neg h]
      simp only [List.countP_cons, ih]
      try omega

theorem countP_buildEntries (fam : HashFamily) (ps : List Vec) (i id : Nat) :
    (HashTree.buildEntries fam ps i).countP (fun e => decide (e.2 = id)) =
      if i ≤ id ∧ id < i + ps.length then 1 else 0 := by
  induction ps generalizing i with
  | nil =>
    rw [show HashTree.buildEntries fam [] i = [] from rfl, List.countP_nil,
      if_neg (by simp only [List.length_nil]; omega)]
  | cons p ps ih =>
    rw [show HashTree.buildEntries fam (p :: ps) i
        = insertEntry (HashTree.buildEntries fam ps (i + 1)) (fam.hash p, i) from rfl]
    rw [countP_insertEntry, ih]
    simp only [decide_eq_true_eq, List.length_cons]
    split_ifs <;> omega

theorem mem_insertEntry (l : List (Signature × Nat)) (e x : Signature × Nat) :
    x ∈ insertEntry l e ↔ x = e ∨ x ∈ l := by
  induction l with
  | nil => simp [insertEntry]
  | cons y ys ih =>
    unfold insertEntry
    by_cases h : entryLe e y
    · rw [if_pos h]
      exact List.mem_cons
    · rw [if_neg h]
      simp only [List.mem_cons, ih]
      tauto

theorem mem_buildEntries_id (fam : HashFamily) (ps : List Vec) (i : Nat)
    (e : Signature × Nat) (h : e ∈ HashTree.buildEntries fam ps i) :
    i ≤ e.2 ∧ e.2 < i + ps.length := by
  induction ps generalizing i with
  | nil => exact absurd h (by simp [HashTree.buildEntries])
  | cons p ps ih =>
    rw [show HashTree.buildEntries fam (p :: ps) i
        = insertEntry (HashTree.buildEntries fam ps (i + 1)) (fam.hash p, i) from rfl] at h
    rcases (mem_insertEntry _ _ _).1 h with rfl | h'
    · simp only [List.length_cons]
      omega
    · have := ih (i + 1) h'
      simp only [List.length_cons]
      omega

theorem fit_synced (points : List Vec) (d L n s : Nat) (f : ForestIndex)
    (hfit : ForestIndex.fit points d L n s = .ok f) :
    ∀ t ∈ f.trees, ∀ id : Nat,
      t.entries.countP (fun e => decide (e.2 = id)) =
        if id < f.points.length then 1 else 0 := by
  unfold ForestIndex.fit at hfit
  split at hfit
  · exact absurd hfit (by simp)
  · split at hfit
    · obtain rfl := Except.ok.inj hfit
      intro t ht id
      simp only [List.mem_map] at ht
      obtain ⟨i, _, rfl⟩ := ht
      show (HashTree.buildEntries _ points 0).countP _ = if id < points.length then 1 else 0
      rw [countP_buildEntries]
      split_ifs <;> omega
    · exact absurd hfit (by simp)

theorem insert_synced (f g : ForestIndex) (p : Vec)
    (hsync : ∀ t ∈ f.trees, ∀ id : Nat,
      t.entries.countP (fun e => decide (e.2 = id)) =
        if id < f.points.length then 1 else 0)
    (hins : f.insert p = .ok g) :
    ∀ t ∈ g.trees, ∀ id : Nat,
      t.entries.countP (fun e => decide (e.2 = id)) =
        if id < g.points.length then 1 else 0 := by
  unfold ForestIndex.insert at hins
  split at hins
  · obtain rfl := Except.ok.inj hins
    intro t ht id
    simp only [List.mem_map] at ht
    obtain ⟨t₀, ht₀, rfl⟩ := ht
    show (insertEntry t₀.entries _).countP _ = if id < (f.points ++ [p]).length then 1 else 0
    rw [countP_insertEntry, hsync t₀ ht₀ id]
    simp only [List.length_append, List.length_cons, List.length_nil, decide_eq_true_eq]
    split_ifs <;> omega
  · exact absurd hins (by simp)

theorem insertAll_synced (ps : List Vec) (f g : ForestIndex)
    (hsync : ∀ t ∈ f.trees, ∀ id : Nat,
      t.entries.countP (fun e => decide (e.2 = id)) =
        if id < f.points.length then 1 else 0)
    (hins : f.insertAll ps = .ok g) :
    ∀ t ∈ g.trees, ∀ id : Nat,
      t.entries.countP (fun e => decide (e.2 = id)) =
        if id < g.points.length then 1 else 0 := by
  induction ps generalizing f with
  | nil =>
    replace hins : (Except.ok f : Except IndexError ForestIndex) = .ok g := hins
    obtain rfl := Except.ok.inj hins
    exact hsync
  | cons p ps ih =>
    unfold ForestIndex.insertAll at hins
    rw [List.foldlM_cons] at hins
    cases hstep : f.insert p with
    | error e =>
      rw [hstep] at hins
      replace hins : (Except.error e : Except IndexError ForestIndex) = .ok g := hins
      exact absurd hins (by simp)
    | ok f₁ =>
      rw [hstep] at hins
      exact ih f₁ (insert_synced f f₁ p hsync hstep) hins

/-- C4: after any `fit`/build and any sequence of `insert` operations on a
ForestIndex, every inserted point has exactly one entry in every one of the
forest's trees (insert forwards the point to every owned tree, keeping all
trees in sync). -/
theorem C4_every_point_once_per_tree (points ps : List Vec) (d L n s : Nat)
    (f₀ f : ForestIndex)
    (hfit : ForestIndex.fit points d L n s = .ok f₀)
    (hins : f₀.insertAll ps = .ok f) :
    ∀ t ∈ f.trees, ∀ id : Nat, id < f.points.length →
      t.entries.countP (fun e => decide (e.2 = id)) = 1 := by
  intro t ht id hid
  have h := insertAll_synced ps f₀ f (fit_synced points d L n s f₀ hfit) hins t ht id
  rw [h, if_pos hid]

theorem C4_witness :
    (HashTree.mk (HashFamily.mk []) [([], 0)]).entries.countP
      (fun e => decide (e.2 = 0)) = 1 :=
  C4_every_point_once_per_tree [[1]] [] 1 0 1 0
    (ForestIndex.mk 1 [[1]] [HashTree.mk (HashFamily.mk []) [([], 0)]])
    (ForestIndex.mk 1 [[1]] [HashTree.mk (HashFamily.mk []) [([], 0)]])
    rfl rfl (HashTree.mk (HashFamily.mk []) [([], 0)]) (by simp) 0 (by decide)

end LSHForestModel

namespace LSHForestModel

theorem candidates_mono (t : HashTree) (sig : Signature) (m m' : Nat) (hm : m ≤ m')
    (id : Nat) (h : id ∈ t.candidates sig m) : id ∈ t.candidates sig m' := by
  unfold HashTree.candidates at h ⊢
  have htake : (t.expansionOrder sig).dedup.take m
      = ((t.expansionOrder sig).dedup.take m').take m := by
    rw [List.take_take, Nat.min_eq_left hm]
  rw [htake] at h
  exact List.take_subset _ _ h

theorem pool_mono (f f' : ForestIndex) (q : Vec) (m m' : Nat)
    (htrees : ∀ tr ∈ f.trees, tr ∈ f'.trees) (hm : m ≤ m')
    (id : Nat) (h : id ∈ f.pool q m) : id ∈ f'.pool q m' := by
  unfold ForestIndex.pool at h ⊢
  rw [List.mem_dedup, List.mem_flatten] at h ⊢
  obtain ⟨l, hl, hid⟩ := h
  rw [List.mem_map] at hl
  obtain ⟨tr, htr, rfl⟩ := hl
  refine ⟨tr.candidates (tr.family.hash q) m', ?_, ?_⟩
  · rw [List.mem_map]
    exact ⟨tr, htrees tr htr, rfl⟩
  · exact candidates_mono tr _ m m' hm id hid

theorem fit_eq (points : List Vec) (d L n s : Nat) (f : ForestIndex)
    (hfit : ForestIndex.fit points d L n s = .ok f) :
    f.dimension = d ∧ f.points = points ∧
    f.trees = (List.range n).map (fun i =>
      HashTree.build points (HashFamily.generate d L (treeSeed s i))) := by
  unfold ForestIndex.fit at hfit
  split at hfit
  · exact absurd hfit (by simp)
  · split at hfit
    · obtain rfl := (Except.ok.inj hfit).symm
      exact ⟨rfl, rfl, rfl⟩
    · exact absurd hfit (by simp)

theorem candidates_id_lt (points : List Vec) (fam : HashFamily) (sig : Signature)
    (m id : Nat) (h : id ∈ (HashTree.build points fam).candidates sig m) :
    id < points.length := by
  unfold HashTree.candidates at h
  have h1 : id ∈ (HashTree.build points fam).expansionOrder sig :=
    List.mem_dedup.1 (List.take_subset _ _ h)
  unfold HashTree.expansionOrder at h1
  rw [List.mem_map] at h1
  obtain ⟨e, he, rfl⟩ := h1
  have he' : e ∈ (HashTree.build points fam).entries :=
    (List.mergeSort_perm _ _).mem_iff.1 he
  have := mem_buildEntries_id fam points 0 e he'
  omega

theorem pool_valid (points : List Vec) (d L n s : Nat) (f : ForestIndex)
    (hfit : ForestIndex.fit points d L n s = .ok f) (q : Vec) (m id : Nat)
    (h : id ∈ f.pool q m) : id < points.length := by
  obtain ⟨-, -, htrees⟩ := fit_eq points d L n s f hfit
  unfold ForestIndex.pool at h
  rw [List.mem_dedup, List.mem_flatten] at h
  obtain ⟨l, hl, hid⟩ := h
  rw [List.mem_map] at hl
  obtain ⟨tr, htr, rfl⟩ := hl
  rw [htrees, List.mem_map] at htr
  obtain ⟨i, -, rfl⟩ := htr
  exact candidates_id_lt points _ _ m id hid

theorem approxTop1_eq (dist : Vec → Vec → ℚ) (f : ForestIndex) (q : Vec) (m : Nat)
    (hq : q.length = f.dimension) :
    approxTop1 dist f q m
      = ((rank (distOfQ dist f.points q) (f.pool q m)).head?).map (fun e => e.1) := by
  unfold approxTop1 ForestIndex.kneighbors
  rw [if_pos hq]
  show ((rank (distOfQ dist f.points q) (f.pool q m)).take 1).head?.map (fun e => e.1) = _
  cases rank (distOfQ dist f.points q) (f.pool q m) with
  | nil => rfl
  | cons a rest => rfl

theorem exactTop1_eq (points : List Vec) (q : Vec) (dist : Vec → Vec → ℚ) :
    exactTop1 points q dist
      = ((rank (distOfQ dist points q) (List.range points.length)).head?).map
          (fun e => e.1) := by
  unfold exactTop1 exact_knn
  cases rank (distOfQ dist points q) (List.range points.length) with
  | nil => rfl
  | cons a rest => rfl

theorem approxTop1_some_dim (dist : Vec → Vec → ℚ) (f : ForestIndex) (q : Vec)
    (m : Nat) (a : Nat) (h : approxTop1 dist f q m = some a) :
    q.length = f.dimension := by
  by_contra hq
  unfold approxTop1 ForestIndex.kneighbors at h
  rw [if_neg hq] at h
  replace h : (none : Option Nat) = some a := h
  exact Option.noConfusion h

theorem top1Match_mono (dist : Vec → Vec → ℚ) (points : List Vec)
    (f f' : ForestIndex) (q : Vec) (m m' : Nat)
    (hpts : f.points = points) (hpts' : f'.points = points)
    (hdim : f'.dimension = f.dimension)
    (hpoolmono : ∀ id, id ∈ f.pool q m → id ∈ f'.pool q m')
    (hvalid' : ∀ id, id ∈ f'.pool q m' → id < points.length)
    (hmatch : top1Match dist points f m q = true) :
    top1Match dist points f' m' q = true := by
  unfold top1Match at hmatch ⊢
  cases ha : approxTop1 dist f q m with
  | none =>
    rw [ha] at hmatch
    cases he : exactTop1 points q dist with
    | none =>
      rw [he] at hmatch
      replace hmatch : false = true := hmatch
      exact Bool.noConfusion hmatch
    | some e =>
      rw [he] at hmatch
      replace hmatch : false = true := hmatch
      exact Bool.noConfusion hmatch
  | some a =>
    rw [ha] at hmatch
    cases he : exactTop1 points q dist with
    | none =>
      rw [he] at hmatch
      replace hmatch : false = true := hmatch
      exact Bool.noConfusion hmatch
    | some e =>
      rw [he] at hmatch
      replace hmatch : (a == e) = true := hmatch
      replace hmatch : a = e := by simpa using hmatch
      subst hmatch
      have hq : q.length = f.dimension := approxTop1_some_dim dist f q m a ha
      have hq' : q.length = f'.dimension := by rw [hdim]; exact hq
      have haeq := approxTop1_eq dist f q m hq
      rw [hpts, ha] at haeq
      cases hh₁ : (rank (distOfQ dist points q) (f.pool q m)).head? with
      | none =>
        rw [hh₁] at haeq
        exact absurd haeq (by simp)
      | some h₁ =>
        rw [hh₁] at haeq
        replace haeq : a = h₁.1 := by simpa using haeq
        have heeq := exactTop1_eq points q dist
        rw [he] at heeq
        cases hh₂ : (rank (distOfQ dist points q) (List.range points.length)).head? with
        | none =>
          rw [hh₂] at heeq
          exact absurd heeq (by simp)
        | some h₂ =>
          rw [hh₂] at heeq
          replace heeq : a = h₂.1 := by simpa using heeq
          have hspec₁ := rank_head_spec (distOfQ dist points q) (f.pool q m) h₁ hh₁
          have hmem' : h₂.1 ∈ f'.pool q m' := by
            rw [← heeq, haeq]
            exact hpoolmono _ hspec₁.1
          obtain ⟨h₃, hh₃⟩ := rank_head_exists (distOfQ dist points q) (f'.pool q m')
            (List.ne_nil_of_mem hmem')
          have h32 : h₃ = h₂ := rank_head_subset (distOfQ dist points q)
            (f'.pool q m') (List.range points.length) h₃ h₂
            (fun x hx => List.mem_range.mpr (hvalid' x hx)) hh₃ hh₂ hmem'
          have ha' : approxTop1 dist f' q m' = some h₂.1 := by
            rw [approxTop1_eq dist f' q m' hq', hpts', hh₃, h32]
            rfl
          rw [ha']
          show (h₂.1 == a) = true
          rw [heeq]
          simp

theorem fit_error_indep (points : List Vec) (d L n n' s s' : Nat) (e : IndexError)
    (h : ForestIndex.fit points d L n s = .error e) :
    ForestIndex.fit points d L n' s' = .error e := by
  unfold ForestIndex.fit at h ⊢
  by_cases h1 : points.isEmpty
  · rw [if_pos h1] at h ⊢
    exact h
  · rw [if_neg h1] at h ⊢
    by_cases h2 : points.all (fun p => decide (p.length = d))
    · rw [if_pos h2] at h
      exact absurd h (by simp)
    · rw [if_neg h2] at h ⊢
      exact h

theorem recallCount_le (dist : Vec → Vec → ℚ) (points queries : List Vec)
    (d L s : Nat) (t m t' m' : Nat) (ht : t ≤ t') (hm : m ≤ m') :
    recallCount dist points queries d L t s m
      ≤ recallCount dist points queries d L t' s m' := by
  unfold recallCount
  cases hf : ForestIndex.fit points d L t s with
  | error e =>
    rw [fit_error_indep points d L t t' s s e hf]
  | ok f =>
    cases hf' : ForestIndex.fit points d L t' s with
    | error e' =>
      have := fit_error_indep points d L t' t s s e' hf'
      rw [this] at hf
      exact absurd hf (by simp)
    | ok f' =>
      apply List.countP_mono_left
      intro q hq hmatch
      obtain ⟨hdim, hpts, htrees⟩ := fit_eq points d L t s f hf
      obtain ⟨hdim', hpts', htrees'⟩ := fit_eq points d L t' s f' hf'
      apply top1Match_mono dist points f f' q m m' hpts hpts'
        (by rw [hdim, hdim']) ?_ ?_ hmatch
      · intro id hid
        refine pool_mono f f' q m m' ?_ hm id hid
        intro tr htr
        rw [htrees, List.mem_map] at htr
        rw [htrees', List.mem_map]
        obtain ⟨i, hi, rfl⟩ := htr
        rw [List.mem_range] at hi
        exact ⟨i, List.mem_range.mpr (by omega), rfl⟩
      · intro id hid
        exact pool_valid points d L t' s f' hf' q m' id hid

/-- C9: over any sampled query set, expected top-1 recall (the fraction of
queries whose approximate top-1 neighbor equals the exact top-1 neighbor) is
monotone non-decreasing in `n_candidates` when `n_estimators` is held fixed,
and monotone non-decreasing in `n_estimators` when `n_candidates` is held
fixed; the model is deterministic, so the statistical expectation coincides
with the recorded fraction, and the guarantee here is in fact per-query. -/
theorem C9_recall_monotone (dist : Vec → Vec → ℚ) (points queries : List Vec)
    (d L s : Nat) (t t' m m' : Nat) (ht : t ≤ t') (hm : m ≤ m') :
    expectedRecall dist points queries d L t s m
      ≤ expectedRecall dist points queries d L t s m' ∧
    expectedRecall dist points queries d L t s m
      ≤ expectedRecall dist points queries d L t' s m := by
  have key : ∀ t₁ t₂ m₁ m₂ : Nat, t₁ ≤ t₂ → m₁ ≤ m₂ →
      expectedRecall dist points queries d L t₁ s m₁
        ≤ expectedRecall dist points queries d L t₂ s m₂ := by
    intro t₁ t₂ m₁ m₂ ht₁₂ hm₁₂
    unfold expectedRecall
    rcases Nat.eq_zero_or_pos queries.length with hzero | hpos
    · rw [hzero]
      simp
    · have hq : 0 < (queries.length : ℚ) := by exact_mod_cast hpos
      rw [div_le_div_iff_of_pos_right hq]
      exact_mod_cast recallCount_le dist points queries d L s t₁ m₁ t₂ m₂ ht₁₂ hm₁₂
  exact ⟨key t t m m' (Nat.le_refl t) hm, key t t' m m ht (Nat.le_refl m)⟩

theorem C9_witness :
    expectedRecall sqDist [[1], [2]] [[1]] 1 2 1 0 1
      ≤ expectedRecall sqDist [[1], [2]] [[1]] 1 2 1 0 2 ∧
    expectedRecall sqDist [[1], [2]] [[1]] 1 2 1 0 1
      ≤ expectedRecall sqDist [[1], [2]] [[1]] 1 2 2 0 1 :=
  C9_recall_monotone sqDist [[1], [2]] [[1]] 1 2 0 1 2 1 2 (by decide) (by decide)

end LSHForestModel
